import Mathlib

/-!
Verification development for the readnow document-to-speech reader.

The definitions below are a shallow embedding of the playback core:
the text chunker (`splitTextIntoChunks` in utils/textUtils), the
Gemini audio-clip cache with its prefetcher (`preloadGeminiChunk`),
the session reset (`resetAudioState`), the play-sequence entry logic
and its completion/error callbacks, and the pause-offset arithmetic
(`handlePause` / `animateProgress`).  Strings are modelled as lists of
characters; machine floats (AudioContext clock values, playback rate)
are modelled as rationals; the asynchronous fetch is split into its
synchronous beginning (everything before the first `await`) and its
resolution (the continuation that runs when the awaited promise
settles), which is the event-loop-faithful granularity of
interleaving for user events such as reset.
-/

namespace Readnow

/-- Sentence-ending delimiter characters of the chunker's split regex:
full-width and ASCII period, exclamation and question marks, and the
two line terminators. -/
def isDelim (c : Char) : Bool :=
  c = '。' || c = '.' || c = '！' || c = '!' || c = '？' || c = '?' || c = '\n' || c = '\r'

/-- Whitespace characters removed by the JavaScript string trim used in
the chunker (space, tab, line feed, vertical tab, form feed, carriage
return, no-break space). -/
def isWsChar (c : Char) : Bool :=
  c = ' ' || c = '\t' || c = '\n' || c = '\x0b' || c = '\x0c' || c = '\r' || c = ' '

/-- JavaScript `String.prototype.trim` on a character list: drop
whitespace from both ends. -/
def trimL (s : List Char) : List Char :=
  ((s.dropWhile isWsChar).reverse.dropWhile isWsChar).reverse

/-- Worker for `splitKeepDelims`: scans the character list, grouping
maximal runs of delimiter and non-delimiter characters into pieces,
alternating, starting with a (possibly empty) non-delimiter piece, and
ending with an empty piece when the text ends inside a delimiter run.
This matches the result of the JavaScript split with a captured
delimiter group. -/
def splitAux (inDelim : Bool) (acc : List Char) : List Char → List (List Char)
  | [] => if inDelim then [acc.reverse, []] else [acc.reverse]
  | c :: rest =>
    if isDelim c = inDelim then splitAux inDelim (c :: acc) rest
    else acc.reverse :: splitAux (isDelim c) [c] rest

/-- The chunker's `text.split` call with the delimiter class captured:
the resulting pieces concatenate back to the input. -/
def splitKeepDelims (s : List Char) : List (List Char) :=
  splitAux false [] s

/-- One iteration of the chunker's accumulation loop: flush the
running buffer into a new segment when appending the next piece would
exceed `maxChars` and the buffer has non-whitespace content, then
append the piece to the (possibly emptied) buffer. -/
def chunkStep (maxChars : Nat) (st : List (List Char) × List Char) (s : List Char) :
    List (List Char) × List Char :=
  if maxChars < st.2.length + s.length ∧ 0 < (trimL st.2).length then
    (st.1 ++ [trimL st.2], s)
  else
    (st.1, st.2 ++ s)

/-- The final flush after the chunker's loop: append the trimmed
trailing buffer when it has non-whitespace content. -/
def finishChunks (st : List (List Char) × List Char) : List (List Char) :=
  if 0 < (trimL st.2).length then st.1 ++ [trimL st.2] else st.1

/-- `splitTextIntoChunks` from utils/textUtils: split the text on
sentence-ending punctuation keeping the delimiters, greedily
accumulate pieces into chunks bounded by `maxChars`, trim each flushed
chunk, and flush the trailing buffer when it has non-whitespace
content.  Empty input yields no chunks. -/
def splitTextIntoChunks (text : List Char) (maxChars : Nat) : List (List Char) :=
  if text.isEmpty then []
  else finishChunks ((splitKeepDelims text).foldl (chunkStep maxChars) ([], []))

/-- Application status enumeration from types.ts. -/
inductive AppStatus where
  | IDLE
  | PARSING_PDF
  | GENERATING_AUDIO
  | READY_TO_PLAY
  | PLAYING
  | ERROR
deriving DecidableEq, Repr

/-- The playback session's mutable state: the React state and refs of
the App component that the playback core reads and writes.  Decoded
audio buffers are identified by an abstract numeric id; clock values
and the playback rate are rationals. -/
structure PlayState where
  sessionId : Nat
  isPlaying : Bool
  isPlayingRef : Bool
  status : AppStatus
  chunks : List (List Char)
  currentChunkIndex : Nat
  chunkProgressIndex : Int
  audioCache : List (Nat × Nat)
  fetching : List Nat
  sourceNode : Bool
  startTime : ℚ
  pausedTime : ℚ
  playbackRate : ℚ
  timerDuration : Nat
  timeLeft : Option Int
deriving DecidableEq, Repr

/-- `audioCacheRef.current.has(i)` on the association-list model of the
JavaScript Map. -/
def cacheHas (cache : List (Nat × Nat)) (i : Nat) : Bool :=
  cache.any (fun e => e.1 = i)

/-- `audioCacheRef.current.set(i, v)`: overwrite the entry when the key
is present, append otherwise. -/
def cacheSet (cache : List (Nat × Nat)) (i v : Nat) : List (Nat × Nat) :=
  if cacheHas cache i then cache.map (fun e => if e.1 = i then (i, v) else e)
  else cache ++ [(i, v)]

/-- `resetAudioState`: clear the play flags and the progress highlight,
stop and drop the active source node, clear the clip cache and the
in-flight set, bump the session generation, rewind the cursor and the
paused offset, and restore the timer budget. -/
def resetAudioState (s : PlayState) : PlayState :=
  { s with
    isPlayingRef := false
    isPlaying := false
    chunkProgressIndex := -1
    sourceNode := false
    audioCache := []
    fetching := []
    sessionId := s.sessionId + 1
    currentChunkIndex := 0
    pausedTime := 0
    timeLeft := if 0 < s.timerDuration then some (s.timerDuration * 60) else none }

/-- The synchronous beginning of `preloadGeminiChunk`: the guards that
run before the first `await` and the insertion of the index into the
in-flight set.  The boolean reports whether the fetch proceeds to the
synthesis call. -/
def preloadBegin (index : Nat) (s : PlayState) : PlayState × Bool :=
  if s.timeLeft = some 0 ∧ 0 < s.timerDuration then (s, false)
  else if s.chunks.length ≤ index then (s, false)
  else if cacheHas s.audioCache index then (s, false)
  else if index ∈ s.fetching then (s, false)
  else ({ s with fetching := index :: s.fetching }, true)

/-- Result of the awaited synthesis-and-decode pipeline: either a
decoded buffer id or a thrown error (synthesis failure or decode
failure). -/
inductive FetchOutcome where
  | success (buf : Nat)
  | failure
deriving DecidableEq, Repr

/-- The try-block of `preloadGeminiChunk` from the first `await`
onward: a failed synthesis or decode is an exception; on success the
captured session id is compared against the current one, a mismatch
returns without touching the cache, a match inserts the decoded buffer
into the cache. -/
def preloadTryBody (index capturedSid : Nat) (outcome : FetchOutcome) (s : PlayState) :
    Except String PlayState :=
  match outcome with
  | .failure => .error "synthesis or decode failed"
  | .success buf =>
    if capturedSid ≠ s.sessionId then .ok s
    else .ok { s with audioCache := cacheSet s.audioCache index buf }

/-- The resolution of `preloadGeminiChunk`: run the try-block, swallow
any error in the catch-block, and remove the index from the in-flight
set in the finally-block on every path. -/
def preloadResolve (index capturedSid : Nat) (outcome : FetchOutcome) (s : PlayState) :
    PlayState :=
  let s₁ := match preloadTryBody index capturedSid outcome s with
            | .ok s' => s'
            | .error _ => s
  { s₁ with fetching := s₁.fetching.erase index }

/-- A whole `preloadGeminiChunk` call running without interleaving:
the synchronous beginning followed, when the fetch started, by the
resolution against the resulting state under the captured session
id. -/
def preloadGeminiChunk (index : Nat) (outcome : FetchOutcome) (s : PlayState) : PlayState :=
  let p := preloadBegin index s
  if p.2 then preloadResolve index s.sessionId outcome p.1 else p.1

/-- The timer-budget guard at the top of `playSequence`:
`timerDuration > 0 && timeLeft !== null && timeLeft <= 0`. -/
def timerExpired (s : PlayState) : Bool :=
  decide (0 < s.timerDuration) &&
    (match s.timeLeft with
     | some t => decide (t ≤ 0)
     | none => false)

/-- How the synchronous entry of `playSequence` left the session:
stopped by an exhausted timer budget, finished past the last segment,
or proceeding to play the segment at the requested index. -/
inductive PlayAction where
  | timerStop
  | sequenceDone
  | proceed
deriving DecidableEq, Repr

/-- The synchronous entry of `playSequence(index, currentChunks)`:
the timer-budget guard, the end-of-sequence branch (back to idle with
the cursor, the paused offset and the highlight reset), and otherwise
the transition into the playing state at `index`. -/
def playSequenceEntry (index : Nat) (chunksLen : Nat) (s : PlayState) :
    PlayState × PlayAction :=
  if timerExpired s then
    ({ s with isPlaying := false, isPlayingRef := false, status := .READY_TO_PLAY },
     .timerStop)
  else if chunksLen ≤ index then
    ({ s with isPlaying := false, isPlayingRef := false, status := .IDLE,
              currentChunkIndex := 0, pausedTime := 0, chunkProgressIndex := -1 },
     .sequenceDone)
  else
    ({ s with currentChunkIndex := index, isPlaying := true, isPlayingRef := true,
              status := .PLAYING, chunkProgressIndex := 0 },
     .proceed)

/-- The `source.onended` callback of the buffered-clip path for the
segment at `index`, with its captured session id: when the play-intent
flag is still set and the generation matches, rewind the paused offset
and the highlight and re-enter `playSequence` at `index + 1`;
otherwise do nothing.  The returned option reports whether the
re-entry happened and how it left the session. -/
def sourceOnEnded (capturedSid index chunksLen : Nat) (s : PlayState) :
    PlayState × Option PlayAction :=
  if s.isPlayingRef = true ∧ s.sessionId = capturedSid then
    let r := playSequenceEntry (index + 1) chunksLen
      { s with pausedTime := 0, chunkProgressIndex := -1 }
    (r.1, some r.2)
  else (s, none)

/-- The `utterance.onend` callback of the platform-utterance path:
same generation and play-intent guard, highlight rewound, re-entry at
`index + 1`. -/
def utteranceOnEnd (capturedSid index chunksLen : Nat) (s : PlayState) :
    PlayState × Option PlayAction :=
  if s.isPlayingRef = true ∧ s.sessionId = capturedSid then
    let r := playSequenceEntry (index + 1) chunksLen
      { s with chunkProgressIndex := -1 }
    (r.1, some r.2)
  else (s, none)

/-- The `utterance.onerror` callback: the benign interruption causes
return immediately; every other cause clears the play flags. -/
def utteranceOnError (err : String) (s : PlayState) : PlayState :=
  if err = "interrupted" ∨ err = "canceled" then s
  else { s with isPlaying := false, isPlayingRef := false }

/-- Starting the buffered clip in `playSequence` (source creation and
`source.start(0, offset)`): record the start timestamp and the active
source; the returned rational is the captured `offset` local, read
from the paused offset. -/
def startClip (now : ℚ) (s : PlayState) : PlayState × ℚ :=
  ({ s with startTime := now, sourceNode := true }, s.pausedTime)

/-- The elapsed-audio-time computation of the highlight estimator in
`animateProgress`: elapsed real time scaled by the playback rate plus
the captured prior offset. -/
def elapsedAudioTime (s : PlayState) (offset now : ℚ) : ℚ :=
  (now - s.startTime) * s.playbackRate + offset

/-- The buffered-clip branch of `handlePause` at clock value `now`:
clear the play flags, leave the playing state, and, when a source is
active, add the rate-scaled elapsed real time to the paused offset. -/
def handlePauseGemini (now : ℚ) (s : PlayState) : PlayState :=
  let s₁ := { s with isPlayingRef := false, isPlaying := false,
                     status := AppStatus.READY_TO_PLAY }
  if s₁.sourceNode then
    { s₁ with pausedTime := s₁.pausedTime + (now - s₁.startTime) * s₁.playbackRate }
  else s₁

/-- The synchronous skeleton of `handleStartProcess`: an empty text
returns immediately; otherwise the session is reset, the text is
split with the engine-dependent bound (200 for the buffered-clip
engine, 2500 for the platform engine), and playback proceeds only
when the split produced at least one segment.  The boolean reports
whether playback was started. -/
def handleStartProcessModel (extractedText : List Char) (geminiEngine : Bool)
    (s : PlayState) : PlayState × Bool :=
  if extractedText.isEmpty then (s, false)
  else
    let s₁ := resetAudioState s
    let s₂ := { s₁ with
      chunks := splitTextIntoChunks extractedText (if geminiEngine then 200 else 2500) }
    if s₂.chunks.isEmpty then (s₂, false) else (s₂, true)

/-- A concrete session state used by the witness theorems: mid-playback
of a three-segment text in the buffered-clip engine. -/
def sPlay : PlayState :=
  { sessionId := 3
    isPlaying := true
    isPlayingRef := true
    status := .PLAYING
    chunks := ["One.".toList, "Two.".toList, "Three.".toList]
    currentChunkIndex := 1
    chunkProgressIndex := 2
    audioCache := [(0, 10), (1, 11)]
    fetching := [2]
    sourceNode := true
    startTime := 5
    pausedTime := 0
    playbackRate := 1
    timerDuration := 30
    timeLeft := some 1700 }

/-! ### Basic lemmas about trimming and the delimiter-keeping split -/

theorem dropWhile_all_eq_nil {p : Char → Bool} {l : List Char}
    (h : ∀ c ∈ l, p c = true) : l.dropWhile p = [] := by
  induction l with
  | nil => rfl
  | cons a t ih =>
    rw [List.dropWhile_cons, h a (by simp)]
    exact ih (fun c hc => h c (by simp [hc]))

theorem all_of_dropWhile_eq_nil {p : Char → Bool} {l : List Char}
    (h : l.dropWhile p = []) : ∀ c ∈ l, p c = true := by
  induction l with
  | nil => simp
  | cons a t ih =>
    rw [List.dropWhile_cons] at h
    by_cases hp : p a = true
    · rw [hp] at h
      simp only [if_true] at h
      intro c hc
      rcases List.mem_cons.mp hc with rfl | hc
      · exact hp
      · exact ih h c hc
    · simp only [hp] at h
      simp at h

theorem trimL_eq_nil_iff {s : List Char} :
    trimL s = [] ↔ ∀ c ∈ s, isWsChar c = true := by
  constructor
  · intro h c hc
    have h₁ : (s.dropWhile isWsChar).reverse.dropWhile isWsChar = [] := by
      have := congrArg List.reverse h
      simpa [trimL] using this
    have h₂ : ∀ c ∈ (s.dropWhile isWsChar).reverse, isWsChar c = true :=
      all_of_dropWhile_eq_nil h₁
    have h₃ : ∀ c ∈ s.dropWhile isWsChar, isWsChar c = true := by
      intro c hc
      exact h₂ c (List.mem_reverse.mpr hc)
    by_cases hmem : c ∈ s.dropWhile isWsChar
    · exact h₃ c hmem
    · have hsplit : s.takeWhile isWsChar ++ s.dropWhile isWsChar = s :=
        List.takeWhile_append_dropWhile isWsChar s
      have : c ∈ s.takeWhile isWsChar ++ s.dropWhile isWsChar := by rw [hsplit]; exact hc
      rcases List.mem_append.mp this with htk | hdw
      · exact List.mem_takeWhile_imp htk
      · exact h₃ c hdw
  · intro h
    have h₁ : s.dropWhile isWsChar = [] := dropWhile_all_eq_nil h
    simp [trimL, h₁]

theorem filter_dropWhile_eq {p : Char → Bool} {l : List Char} :
    (l.dropWhile p).filter (fun c => !p c) = l.filter (fun c => !p c) := by
  conv_rhs => rw [← List.takeWhile_append_dropWhile p l]
  rw [List.filter_append]
  have : (l.takeWhile p).filter (fun c => !p c) = [] := by
    apply List.filter_eq_nil_iff.mpr
    intro c hc
    have := List.mem_takeWhile_imp hc
    simp [this]
  rw [this, List.nil_append]

theorem filter_trimL {s : List Char} :
    (trimL s).filter (fun c => !isWsChar c) = s.filter (fun c => !isWsChar c) := by
  unfold trimL
  rw [List.filter_reverse, filter_dropWhile_eq, List.filter_reverse, List.reverse_reverse,
    filter_dropWhile_eq]

theorem nonws_of_trimL_ne_nil {s : List Char} (h : trimL s ≠ []) :
    s.filter (fun c => !isWsChar c) ≠ [] := by
  intro hfil
  apply h
  apply trimL_eq_nil_iff.mpr
  intro c hc
  by_contra hw
  have : c ∈ s.filter (fun c => !isWsChar c) := by
    apply List.mem_filter.mpr
    exact ⟨hc, by simp [hw]⟩
  rw [hfil] at this
  exact absurd this (List.not_mem_nil c)

theorem trimL_ne_nil_of_filter {s : List Char}
    (h : s.filter (fun c => !isWsChar c) ≠ []) : trimL s ≠ [] := by
  intro htr
  apply h
  have hall := trimL_eq_nil_iff.mp htr
  apply List.filter_eq_nil_iff.mpr
  intro c hc
  simp [hall c hc]

theorem dropWhile_append_of_all {p : Char → Bool} {w l : List Char}
    (h : ∀ c ∈ w, p c = true) : (w ++ l).dropWhile p = l.dropWhile p := by
  induction w with
  | nil => rfl
  | cons a t ih =>
    rw [List.cons_append, List.dropWhile_cons, h a (by simp)]
    exact ih (fun c hc => h c (by simp [hc]))

theorem trimL_ws_append {w l : List Char} (h : ∀ c ∈ w, isWsChar c = true) :
    trimL (w ++ l) = trimL l := by
  unfold trimL
  rw [dropWhile_append_of_all h]

theorem length_dropWhile_le (p : Char → Bool) (l : List Char) :
    (l.dropWhile p).length ≤ l.length := by
  induction l with
  | nil => simp
  | cons a t ih =>
    rw [List.dropWhile_cons]
    by_cases hp : p a = true
    · simp only [hp, if_true]
      exact Nat.le_succ_of_le ih
    · simp only [hp]
      simp

theorem trimL_length_le {s : List Char} : (trimL s).length ≤ s.length := by
  unfold trimL
  calc ((s.dropWhile isWsChar).reverse.dropWhile isWsChar).reverse.length
      = ((s.dropWhile isWsChar).reverse.dropWhile isWsChar).length := List.length_reverse _
    _ ≤ (s.dropWhile isWsChar).reverse.length := length_dropWhile_le _ _
    _ = (s.dropWhile isWsChar).length := List.length_reverse _
    _ ≤ s.length := length_dropWhile_le _ _

theorem flatten_splitAux (b : Bool) (acc : List Char) (l : List Char) :
    (splitAux b acc l).flatten = acc.reverse ++ l := by
  induction l generalizing b acc with
  | nil =>
    unfold splitAux
    by_cases hb : b <;> simp [hb]
  | cons c rest ih =>
    unfold splitAux
    by_cases hd : isDelim c = b
    · rw [if_pos hd, ih]
      simp
    · rw [if_neg hd]
      simp [ih]

theorem flatten_splitKeepDelims (s : List Char) : (splitKeepDelims s).flatten = s := by
  unfold splitKeepDelims
  rw [flatten_splitAux]
  rfl

/-! ### Chunker fold invariants -/

theorem trimL_trimL_ne_nil {s : List Char} (h : trimL s ≠ []) :
    trimL (trimL s) ≠ [] :=
  trimL_ne_nil_of_filter (by rw [filter_trimL]; exact nonws_of_trimL_ne_nil h)

theorem chunkStep_flush {m : Nat} {chunks : List (List Char)} {cur s : List Char}
    (h : m < cur.length + s.length ∧ 0 < (trimL cur).length) :
    chunkStep m (chunks, cur) s = (chunks ++ [trimL cur], s) := by
  unfold chunkStep
  rw [if_pos h]

theorem chunkStep_keep {m : Nat} {chunks : List (List Char)} {cur s : List Char}
    (h : ¬(m < cur.length + s.length ∧ 0 < (trimL cur).length)) :
    chunkStep m (chunks, cur) s = (chunks, cur ++ s) := by
  unfold chunkStep
  rw [if_neg h]

theorem fold_filter_invariant (m : Nat) (pieces : List (List Char)) :
    ∀ chunks cur,
      (((pieces.foldl (chunkStep m) (chunks, cur)).1.flatten
          ++ (pieces.foldl (chunkStep m) (chunks, cur)).2).filter (fun c => !isWsChar c))
        = ((chunks.flatten ++ (cur ++ pieces.flatten)).filter (fun c => !isWsChar c)) := by
  induction pieces with
  | nil => intro chunks cur; simp
  | cons s rest ih =>
    intro chunks cur
    rw [List.foldl_cons]
    by_cases hc : m < cur.length + s.length ∧ 0 < (trimL cur).length
    · rw [chunkStep_flush hc, ih]
      simp only [List.flatten_append, List.flatten_cons, List.flatten_nil, List.append_nil,
        List.filter_append, List.append_assoc, filter_trimL]
    · rw [chunkStep_keep hc, ih]
      simp only [List.flatten_cons, List.append_assoc]

theorem fold_chunks_nonempty (m : Nat) (pieces : List (List Char)) :
    ∀ chunks cur, (∀ c ∈ chunks, trimL c ≠ []) →
      ∀ c ∈ (pieces.foldl (chunkStep m) (chunks, cur)).1, trimL c ≠ [] := by
  induction pieces with
  | nil => intro chunks cur h; exact h
  | cons s rest ih =>
    intro chunks cur h
    rw [List.foldl_cons]
    by_cases hc : m < cur.length + s.length ∧ 0 < (trimL cur).length
    · rw [chunkStep_flush hc]
      apply ih
      intro c hmem
      rcases List.mem_append.mp hmem with hl | hr
      · exact h c hl
      · have : c = trimL cur := by simpa using hr
        rw [this]
        exact trimL_trimL_ne_nil (by
          intro hnil
          rw [hnil] at hc
          simp at hc)
    · rw [chunkStep_keep hc]
      exact ih chunks (cur ++ s) h

/-- A chunk is within bound, or is the trim of a single oversized piece
of the delimiter-keeping split. -/
def chunkWithin (m : Nat) (pieceList : List (List Char)) (c : List Char) : Prop :=
  c.length ≤ m ∨ ∃ p, p ∈ pieceList ∧ m < p.length ∧ c = trimL p

/-- The running buffer is within bound, or is a single piece of the
split preceded only by whitespace. -/
def bufferOK (m : Nat) (pieceList : List (List Char)) (cur : List Char) : Prop :=
  cur.length ≤ m ∨
    ∃ w p, cur = w ++ p ∧ (∀ c ∈ w, isWsChar c = true) ∧ p ∈ pieceList

theorem bufferOK_trim {m : Nat} {pieceList : List (List Char)} {cur : List Char}
    (h : bufferOK m pieceList cur) : chunkWithin m pieceList (trimL cur) := by
  rcases h with hlen | ⟨w, p, rfl, hw, hp⟩
  · exact Or.inl (le_trans trimL_length_le hlen)
  · rw [trimL_ws_append hw]
    by_cases hb : (trimL p).length ≤ m
    · exact Or.inl hb
    · exact Or.inr ⟨p, hp, lt_of_lt_of_le (Nat.lt_of_not_le hb) trimL_length_le, rfl⟩

theorem fold_chunk_bound (m : Nat) (pieceList : List (List Char))
    (pieces : List (List Char)) (hsub : ∀ p ∈ pieces, p ∈ pieceList) :
    ∀ chunks cur, (∀ c ∈ chunks, chunkWithin m pieceList c) →
      bufferOK m pieceList cur →
      (∀ c ∈ (pieces.foldl (chunkStep m) (chunks, cur)).1, chunkWithin m pieceList c) ∧
        bufferOK m pieceList ((pieces.foldl (chunkStep m) (chunks, cur)).2) := by
  induction pieces with
  | nil => intro chunks cur hch hcur; exact ⟨hch, hcur⟩
  | cons s rest ih =>
    intro chunks cur hch hcur
    have hs : s ∈ pieceList := hsub s (by simp)
    have hsub' : ∀ p ∈ rest, p ∈ pieceList := fun p hp => hsub p (by simp [hp])
    rw [List.foldl_cons]
    by_cases hc : m < cur.length + s.length ∧ 0 < (trimL cur).length
    · rw [chunkStep_flush hc]
      apply ih hsub'
      · intro c hmem
        rcases List.mem_append.mp hmem with hl | hr
        · exact hch c hl
        · have : c = trimL cur := by simpa using hr
          rw [this]
          exact bufferOK_trim hcur
      · exact Or.inr ⟨[], s, by simp, by simp, hs⟩
    · rw [chunkStep_keep hc]
      apply ih hsub' chunks (cur ++ s) hch
      by_cases hlen : m < cur.length + s.length
      · have htr : (trimL cur).length = 0 := by
          rcases Nat.eq_zero_or_pos (trimL cur).length with h0 | hpos
          · exact h0
          · exact absurd ⟨hlen, hpos⟩ hc
        have hnil : trimL cur = [] := List.length_eq_zero.mp htr
        have hws : ∀ c ∈ cur, isWsChar c = true := trimL_eq_nil_iff.mp hnil
        exact Or.inr ⟨cur, s, rfl, hws, hs⟩
      · exact Or.inl (by
          rw [List.length_append]
          exact Nat.le_of_not_lt hlen)

theorem fold_allws (m : Nat) (pieces : List (List Char))
    (hp : ∀ p ∈ pieces, ∀ c ∈ p, isWsChar c = true) :
    ∀ chunks cur, (∀ c ∈ cur, isWsChar c = true) →
      pieces.foldl (chunkStep m) (chunks, cur) = (chunks, cur ++ pieces.flatten) := by
  induction pieces with
  | nil => intro chunks cur _; simp
  | cons s rest ih =>
    intro chunks cur hcur
    have hs : ∀ c ∈ s, isWsChar c = true := hp s (by simp)
    have hrest : ∀ p ∈ rest, ∀ c ∈ p, isWsChar c = true :=
      fun p hmem => hp p (by simp [hmem])
    have hnil : trimL cur = [] := trimL_eq_nil_iff.mpr hcur
    rw [List.foldl_cons, chunkStep_keep (by simp [hnil]), ih hrest chunks (cur ++ s)
      (by intro c hc; rcases List.mem_append.mp hc with h | h
          · exact hcur c h
          · exact hs c h)]
    simp

/-! ### Claims about the chunker -/

/-- C6: for every input string and every bound, no element of
`splitTextIntoChunks text maxChars` is empty after trimming, and
concatenating all returned segments reproduces the input's content up
to whitespace removed at segment boundaries: the non-whitespace
characters, in order, are exactly those of the input. -/
theorem chunker_nonempty_segments_and_content (text : List Char) (maxChars : Nat) :
    (∀ c ∈ splitTextIntoChunks text maxChars, trimL c ≠ []) ∧
      (splitTextIntoChunks text maxChars).flatten.filter (fun c => !isWsChar c)
        = text.filter (fun c => !isWsChar c) := by
  by_cases ht : text.isEmpty = true
  · have hnil : text = [] := by
      cases text with
      | nil => rfl
      | cons a t => simp at ht
    subst hnil
    constructor
    · intro c hc
      simp [splitTextIntoChunks] at hc
    · simp [splitTextIntoChunks]
  · have hI := fold_filter_invariant maxChars (splitKeepDelims text) [] []
    have hN := fold_chunks_nonempty maxChars (splitKeepDelims text) [] []
      (by intro c hc; simp at hc)
    set st := (splitKeepDelims text).foldl (chunkStep maxChars) ([], []) with hst
    have hres : splitTextIntoChunks text maxChars = finishChunks st := by
      rw [splitTextIntoChunks, if_neg ht]
    constructor
    · intro c hc
      rw [hres] at hc
      unfold finishChunks at hc
      by_cases hf : 0 < (trimL st.2).length
      · rw [if_pos hf] at hc
        rcases List.mem_append.mp hc with h | h
        · exact hN c h
        · have hcc : c = trimL st.2 := by simpa using h
          rw [hcc]
          exact trimL_trimL_ne_nil (by
            intro h0
            rw [h0] at hf
            simp at hf)
      · rw [if_neg hf] at hc
        exact hN c hc
    · rw [hres]
      unfold finishChunks
      rw [flatten_splitKeepDelims] at hI
      simp only [List.flatten_nil, List.nil_append] at hI
      by_cases hf : 0 < (trimL st.2).length
      · rw [if_pos hf, List.flatten_append]
        simp only [List.flatten_cons, List.flatten_nil, List.append_nil]
        rw [List.filter_append, filter_trimL, ← List.filter_append, hI]
      · rw [if_neg hf]
        have hnil : trimL st.2 = [] := by
          rcases Nat.eq_zero_or_pos (trimL st.2).length with h0 | hp
          · exact List.length_eq_zero.mp h0
          · exact absurd hp hf
        have hwsf : st.2.filter (fun c => !isWsChar c) = [] := by
          apply List.filter_eq_nil_iff.mpr
          intro c hc
          simp [trimL_eq_nil_iff.mp hnil c hc]
        rw [← hI, List.filter_append, hwsf, List.append_nil]

/-- Witness for C6 at a concrete input. -/
theorem chunker_nonempty_segments_and_content_witness :
    trimL ("ab.".toList) ≠ [] ∧
      (splitTextIntoChunks ("ab. cd".toList) 4).flatten.filter (fun c => !isWsChar c)
        = ("ab. cd".toList).filter (fun c => !isWsChar c) := by
  have h := chunker_nonempty_segments_and_content ("ab. cd".toList) 4
  exact ⟨h.1 ("ab.".toList) (by decide), h.2⟩

/-- C7: for `maxChars ≥ 1` and non-empty text, every returned segment
is within `maxChars`, except that a segment may exceed the bound only
when it is the trim of a single oversized piece of the sentence split,
which then appears whole (up to boundary whitespace) in that one
segment. -/
theorem chunker_segment_length_bound (text : List Char) (maxChars : Nat)
    (hm : 1 ≤ maxChars) (hne : text ≠ []) :
    ∀ c ∈ splitTextIntoChunks text maxChars,
      c.length ≤ maxChars ∨
        ∃ p, p ∈ splitKeepDelims text ∧ maxChars < p.length ∧ c = trimL p := by
  intro c hc
  have ht : ¬ text.isEmpty = true := by
    cases text with
    | nil => exact absurd rfl hne
    | cons a t => simp
  rw [splitTextIntoChunks, if_neg ht] at hc
  have h := fold_chunk_bound maxChars (splitKeepDelims text) (splitKeepDelims text)
    (fun p hp => hp) [] [] (by intro x hx; simp at hx) (Or.inl (Nat.zero_le _))
  set st := (splitKeepDelims text).foldl (chunkStep maxChars) ([], []) with hst
  unfold finishChunks at hc
  by_cases hf : 0 < (trimL st.2).length
  · rw [if_pos hf] at hc
    rcases List.mem_append.mp hc with h1 | h1
    · exact h.1 c h1
    · have hcc : c = trimL st.2 := by simpa using h1
      rw [hcc]
      exact bufferOK_trim h.2
  · rw [if_neg hf] at hc
    exact h.1 c hc

/-- Witness for C7 at a concrete input: the 6-character piece of a
single oversized sentence is kept whole under bound 3. -/
theorem chunker_segment_length_bound_witness :
    "a.".toList.length ≤ 3 ∧
      ("abcdef".toList.length ≤ 3 ∨
        ∃ p, p ∈ splitKeepDelims ("a.abcdef".toList) ∧ 3 < p.length
          ∧ "abcdef".toList = trimL p) := by
  have h := chunker_segment_length_bound ("a.abcdef".toList) 3 (by decide) (by decide)
  exact ⟨by decide, h ("abcdef".toList) (by decide)⟩

/-- C8 counterexample: with `maxChars = 5` on input consisting of a
5-character sentence body followed by the delimiter run of three
exclamation marks, the run does not stay attached to the segment
holding the sentence it terminates: it begins the second segment. -/
theorem chunker_delimiter_attachment_cex :
    splitTextIntoChunks ("abcde!!!x".toList) 5
        = ["abcde".toList, "!!!x".toList]
      ∧ ("!!!x".toList).head? = some '!'
      ∧ isDelim '!' = true := by
  refine ⟨by decide, by decide, by decide⟩

/-- C8 amended: a run of delimiter characters stays attached to the end
of the segment containing the sentence it terminates whenever appending
it does not overflow `maxChars` (or the running buffer is still
whitespace-only); when appending would overflow a buffer with content,
the run instead begins the next segment.  For the input
"First sentence. Second one. Third." with `maxChars = 15` the result is
the three sentences, each with its period attached. -/
theorem chunker_delimiter_attachment_amended :
    (splitTextIntoChunks ("First sentence. Second one. Third.".toList) 15
        = ["First sentence.".toList, "Second one.".toList, "Third.".toList])
      ∧ (∀ (m : Nat) (chunks : List (List Char)) (cur d : List Char),
          ((cur.length + d.length ≤ m ∨ trimL cur = []) →
            chunkStep m (chunks, cur) d = (chunks, cur ++ d))
          ∧ (m < cur.length + d.length → trimL cur ≠ [] →
            chunkStep m (chunks, cur) d = (chunks ++ [trimL cur], d))) := by
  constructor
  · decide
  · intro m chunks cur d
    constructor
    · intro hfit
      apply chunkStep_keep
      rintro ⟨hlt, hpos⟩
      rcases hfit with hle | hnil
      · exact absurd hlt (Nat.not_lt.mpr hle)
      · rw [hnil] at hpos
        simp at hpos
    · intro hlt hne
      exact chunkStep_flush ⟨hlt, List.length_pos.mpr hne⟩

/-- Witness for C8 amended: one fitting delimiter run that attaches,
one overflowing run that starts the next segment. -/
theorem chunker_delimiter_attachment_amended_witness :
    chunkStep 10 ([], "ab".toList) ".".toList = ([], "ab.".toList) ∧
      chunkStep 2 ([], "ab".toList) ".".toList
        = ([trimL ("ab".toList)], ".".toList) := by
  have h := chunker_delimiter_attachment_amended.2 10 [] ("ab".toList) (".".toList)
  have h2 := chunker_delimiter_attachment_amended.2 2 [] ("ab".toList) (".".toList)
  exact ⟨h.1 (Or.inl (by decide)), h2.2 (by decide) (by decide)⟩

/-- C10 (implicit): a whitespace-only input yields no segments for any
bound, and starting playback on whitespace-only extracted text performs
the reset, installs an empty segment list, and does not start
playback. -/
theorem whitespace_only_no_segments (text : List Char) (maxChars : Nat)
    (hws : ∀ c ∈ text, isWsChar c = true) :
    splitTextIntoChunks text maxChars = [] ∧
      (text ≠ [] → ∀ (s : PlayState) (geminiEngine : Bool),
        handleStartProcessModel text geminiEngine s
          = ({ resetAudioState s with chunks := [] }, false)) := by
  have hall : ∀ (m : Nat), splitTextIntoChunks text m = [] := by
    intro m
    by_cases ht : text.isEmpty = true
    · have hnil : text = [] := by
        cases text with
        | nil => rfl
        | cons a t => simp at ht
      subst hnil
      simp [splitTextIntoChunks]
    · rw [splitTextIntoChunks, if_neg ht]
      have hp : ∀ p ∈ splitKeepDelims text, ∀ c ∈ p, isWsChar c = true := by
        intro p hpm c hc
        apply hws
        have hmem : c ∈ (splitKeepDelims text).flatten :=
          List.mem_flatten.mpr ⟨p, hpm, hc⟩
        rwa [flatten_splitKeepDelims] at hmem
      rw [fold_allws m (splitKeepDelims text) hp [] []
        (by intro c hc; simp at hc)]
      unfold finishChunks
      simp only [List.nil_append, flatten_splitKeepDelims]
      rw [trimL_eq_nil_iff.mpr hws]
      simp
  refine ⟨hall maxChars, ?_⟩
  intro hne s gem
  have ht : ¬ text.isEmpty = true := by
    cases text with
    | nil => exact absurd rfl hne
    | cons a t => simp
  rw [handleStartProcessModel, if_neg ht]
  simp only [hall (if gem then 200 else 2500)]
  rfl

/-- Witness for C10 at a concrete whitespace-only input. -/
theorem whitespace_only_no_segments_witness :
    splitTextIntoChunks (" \n ".toList) 7 = [] ∧
      handleStartProcessModel (" \n ".toList) true sPlay
        = ({ resetAudioState sPlay with chunks := [] }, false) := by
  have h := whitespace_only_no_segments (" \n ".toList) 7 (by decide)
  exact ⟨h.1, h.2 (by decide) sPlay true⟩

/-! ### Session-state lemmas -/

theorem preloadBegin_cases (index : Nat) (s : PlayState) :
    preloadBegin index s = (s, false)
      ∨ preloadBegin index s = ({ s with fetching := index :: s.fetching }, true) := by
  unfold preloadBegin
  split
  · exact Or.inl rfl
  · split
    · exact Or.inl rfl
    · split
      · exact Or.inl rfl
      · split
        · exact Or.inl rfl
        · exact Or.inr rfl

theorem preloadBegin_sessionId (index : Nat) (s : PlayState) :
    (preloadBegin index s).1.sessionId = s.sessionId := by
  rcases preloadBegin_cases index s with h | h <;> rw [h]

theorem preloadBegin_of_not_started {index : Nat} {s : PlayState}
    (h : (preloadBegin index s).2 = false) : (preloadBegin index s).1 = s := by
  rcases preloadBegin_cases index s with hc | hc
  · rw [hc]
  · rw [hc] at h
    simp at h

theorem preloadBegin_started_fetching {index : Nat} {s : PlayState}
    (h : (preloadBegin index s).2 = true) :
    (preloadBegin index s).1 = { s with fetching := index :: s.fetching } := by
  rcases preloadBegin_cases index s with hc | hc
  · rw [hc] at h
    simp at h
  · rw [hc]

theorem preloadResolve_stale {index g : Nat} {s : PlayState}
    (h : g ≠ s.sessionId) (outcome : FetchOutcome) :
    preloadResolve index g outcome s = { s with fetching := s.fetching.erase index } := by
  cases outcome with
  | failure => rfl
  | success buf =>
    simp only [preloadResolve, preloadTryBody]
    rw [if_pos h]

theorem preloadResolve_fetching (index g : Nat) (outcome : FetchOutcome)
    (s : PlayState) :
    (preloadResolve index g outcome s).fetching = s.fetching.erase index := by
  cases outcome with
  | failure => rfl
  | success buf =>
    simp only [preloadResolve, preloadTryBody]
    by_cases h : g ≠ s.sessionId
    · rw [if_pos h]
    · rw [if_neg h]

/-! ### Claims about the session state machine -/

/-- C1: generation invalidation.  A fetch of segment `index` started
under the current generation, with `resetAudioState` running before the
fetch resolves, resolves without inserting a cache entry for `index`
(the cache stays exactly as the reset left it) and without moving the
playback cursor from where the reset put it. -/
theorem generation_invalidation (s : PlayState) (index : Nat)
    (outcome : FetchOutcome) (hstart : (preloadBegin index s).2 = true) :
    (preloadResolve index s.sessionId outcome
        (resetAudioState (preloadBegin index s).1)).audioCache
      = (resetAudioState (preloadBegin index s).1).audioCache
    ∧ cacheHas (preloadResolve index s.sessionId outcome
        (resetAudioState (preloadBegin index s).1)).audioCache index = false
    ∧ (preloadResolve index s.sessionId outcome
        (resetAudioState (preloadBegin index s).1)).currentChunkIndex
      = (resetAudioState (preloadBegin index s).1).currentChunkIndex := by
  have hsid : (resetAudioState (preloadBegin index s).1).sessionId = s.sessionId + 1 := by
    unfold resetAudioState
    simp [preloadBegin_sessionId]
  have hne : s.sessionId ≠ (resetAudioState (preloadBegin index s).1).sessionId := by
    rw [hsid]
    exact Nat.ne_of_lt (Nat.lt_succ_self _)
  rw [preloadResolve_stale hne outcome]
  refine ⟨rfl, ?_, rfl⟩
  unfold resetAudioState cacheHas
  simp

/-- Witness for C1 at a concrete in-flight fetch interrupted by a
reset. -/
theorem generation_invalidation_witness :
    (preloadResolve 2 ({ sPlay with fetching := [] } : PlayState).sessionId
        (FetchOutcome.success 99)
        (resetAudioState (preloadBegin 2 { sPlay with fetching := [] }).1)).audioCache
      = (resetAudioState (preloadBegin 2 { sPlay with fetching := [] }).1).audioCache
    ∧ cacheHas (preloadResolve 2 ({ sPlay with fetching := [] } : PlayState).sessionId
        (FetchOutcome.success 99)
        (resetAudioState (preloadBegin 2 { sPlay with fetching := [] }).1)).audioCache 2
      = false
    ∧ (preloadResolve 2 ({ sPlay with fetching := [] } : PlayState).sessionId
        (FetchOutcome.success 99)
        (resetAudioState (preloadBegin 2 { sPlay with fetching := [] }).1)).currentChunkIndex
      = (resetAudioState (preloadBegin 2 { sPlay with fetching := [] }).1).currentChunkIndex :=
  generation_invalidation { sPlay with fetching := [] } 2 (FetchOutcome.success 99)
    (by decide)

/-- C2: completion handling.  An ended signal (buffered-clip
`source.onended` or `utterance.onend`) re-enters the play-segment logic
at `index + 1` exactly when the captured generation matches and the
play-intent flag is still set; otherwise — in particular after an
explicit stop, which clears the play-intent flag — it leaves the state
untouched.  When the advanced index runs past the last segment (with a
live timer budget) the session transitions to idle with the cursor and
the paused offset reset to zero. -/
theorem completion_advance (g index chunksLen : Nat) (s : PlayState) :
    (((sourceOnEnded g index chunksLen s).2.isSome = true
        ↔ (s.isPlayingRef = true ∧ s.sessionId = g))
      ∧ ((utteranceOnEnd g index chunksLen s).2.isSome = true
        ↔ (s.isPlayingRef = true ∧ s.sessionId = g)))
    ∧ (¬(s.isPlayingRef = true ∧ s.sessionId = g) →
        sourceOnEnded g index chunksLen s = (s, none)
          ∧ utteranceOnEnd g index chunksLen s = (s, none))
    ∧ (s.isPlayingRef = true ∧ s.sessionId = g → timerExpired s = false →
        index + 1 < chunksLen →
          (sourceOnEnded g index chunksLen s).1.currentChunkIndex = index + 1
          ∧ (sourceOnEnded g index chunksLen s).2 = some PlayAction.proceed
          ∧ (utteranceOnEnd g index chunksLen s).1.currentChunkIndex = index + 1
          ∧ (utteranceOnEnd g index chunksLen s).2 = some PlayAction.proceed)
    ∧ (s.isPlayingRef = true ∧ s.sessionId = g → timerExpired s = false →
        chunksLen ≤ index + 1 →
          (sourceOnEnded g index chunksLen s).1.status = AppStatus.IDLE
          ∧ (sourceOnEnded g index chunksLen s).1.currentChunkIndex = 0
          ∧ (sourceOnEnded g index chunksLen s).1.pausedTime = 0
          ∧ (sourceOnEnded g index chunksLen s).2 = some PlayAction.sequenceDone
          ∧ (utteranceOnEnd g index chunksLen s).1.status = AppStatus.IDLE
          ∧ (utteranceOnEnd g index chunksLen s).1.currentChunkIndex = 0
          ∧ (utteranceOnEnd g index chunksLen s).1.pausedTime = 0) := by
  refine ⟨⟨?_, ?_⟩, ?_, ?_, ?_⟩
  · unfold sourceOnEnded
    by_cases h : s.isPlayingRef = true ∧ s.sessionId = g <;> simp [h]
  · unfold utteranceOnEnd
    by_cases h : s.isPlayingRef = true ∧ s.sessionId = g <;> simp [h]
  · intro h
    unfold sourceOnEnded utteranceOnEnd
    rw [if_neg h, if_neg h]
    exact ⟨rfl, rfl⟩
  · intro h htimer hlt
    have hex : timerExpired { s with pausedTime := 0, chunkProgressIndex := -1 }
        = timerExpired s := rfl
    have hex₂ : timerExpired { s with chunkProgressIndex := (-1 : Int) }
        = timerExpired s := rfl
    unfold sourceOnEnded utteranceOnEnd playSequenceEntry
    rw [if_pos h, if_pos h, hex, hex₂, htimer]
    simp [Nat.not_le.mpr hlt]
  · intro h htimer hge
    have hex : timerExpired { s with pausedTime := 0, chunkProgressIndex := -1 }
        = timerExpired s := rfl
    have hex₂ : timerExpired { s with chunkProgressIndex := (-1 : Int) }
        = timerExpired s := rfl
    unfold sourceOnEnded utteranceOnEnd playSequenceEntry
    rw [if_pos h, if_pos h, hex, hex₂, htimer]
    simp [hge]

/-- Witness for C2: a live completion advances the cursor from 1 to 2;
a completion with a stale generation is a no-op. -/
theorem completion_advance_witness :
    (sourceOnEnded 3 1 3 sPlay).1.currentChunkIndex = 2
    ∧ (sourceOnEnded 3 1 3 sPlay).2 = some PlayAction.proceed
    ∧ sourceOnEnded 7 1 3 sPlay = (sPlay, none)
    ∧ (sourceOnEnded 3 2 3 sPlay).1.status = AppStatus.IDLE
    ∧ (sourceOnEnded 3 2 3 sPlay).1.currentChunkIndex = 0
    ∧ (sourceOnEnded 3 2 3 sPlay).1.pausedTime = 0 := by
  have h₁ := (completion_advance 3 1 3 sPlay).2.2.1 (by decide) (by decide) (by decide)
  have h₂ := (completion_advance 7 1 3 sPlay).2.1 (by decide)
  have h₃ := (completion_advance 3 2 3 sPlay).2.2.2 (by decide) (by decide) (by decide)
  exact ⟨h₁.1, h₁.2.1, h₂.1, h₃.1, h₃.2.1, h₃.2.2.1⟩

/-- C3: idempotent fill.  Two overlapping invocations of
`preloadGeminiChunk` for the same index perform exactly one synthesis
call: the first passes the guards and registers the index in-flight,
the second returns at the in-flight guard without starting a fetch and
without modifying the state.  A fill invoked while a cache entry for
the index is present starts no synthesis and leaves the state — in
particular the existing cache entry — untouched. -/
theorem idempotent_fill (s : PlayState) (index : Nat) (outcome : FetchOutcome) :
    (¬(s.timeLeft = some 0 ∧ 0 < s.timerDuration) → index < s.chunks.length →
      cacheHas s.audioCache index = false → index ∉ s.fetching →
        (preloadBegin index s).2 = true
          ∧ preloadBegin index (preloadBegin index s).1 = ((preloadBegin index s).1, false))
    ∧ (cacheHas s.audioCache index = true →
        preloadBegin index s = (s, false) ∧ preloadGeminiChunk index outcome s = s) := by
  constructor
  · intro htimer hlen hcache hfetch
    have hb : preloadBegin index s = ({ s with fetching := index :: s.fetching }, true) := by
      unfold preloadBegin
      rw [if_neg htimer, if_neg (Nat.not_le.mpr hlen)]
      rw [hcache]
      simp [hfetch]
    refine ⟨by rw [hb], ?_⟩
    rw [hb]
    unfold preloadBegin
    rw [if_neg htimer]
    simp only
    rw [if_neg (Nat.not_le.mpr hlen)]
    rw [hcache]
    simp
  · intro hcache
    have hb : preloadBegin index s = (s, false) := by
      simp [preloadBegin, hcache]
    refine ⟨hb, ?_⟩
    simp [preloadGeminiChunk, hb]

/-- Witness for C3: in the concrete mid-playback state the fill of the
uncached segment 2 starts exactly one synthesis and the overlapping
second call backs off; the fill of the cached segment 0 is the
identity. -/
theorem idempotent_fill_witness :
    (preloadBegin 2 { sPlay with fetching := [] }).2 = true
    ∧ preloadBegin 2 (preloadBegin 2 { sPlay with fetching := [] }).1
        = ((preloadBegin 2 { sPlay with fetching := [] }).1, false)
    ∧ preloadGeminiChunk 0 FetchOutcome.failure sPlay = sPlay := by
  have h₁ := (idempotent_fill { sPlay with fetching := [] } 2 FetchOutcome.failure).1
    (by decide) (by decide) (by decide) (by decide)
  have h₂ := (idempotent_fill sPlay 0 FetchOutcome.failure).2 (by decide)
  exact ⟨h₁.1, h₁.2, h₂.2⟩

/-- C4: in-flight set invariant.  A fetch that proceeds past the guards
has put its index into the in-flight set before the first suspension
point; the resolution removes the index on every path (success,
synthesis or decode failure, stale generation), so a completed fetch
never leaves its index behind; and a failure is absorbed by the
catch-block — the resolution of a failed fetch is an ordinary state
whose only change is the removal of the index. -/
theorem inflight_invariant (index g : Nat) (outcome : FetchOutcome)
    (s s₂ : PlayState) :
    ((preloadBegin index s).2 = true → index ∈ (preloadBegin index s).1.fetching)
    ∧ (s₂.fetching.count index ≤ 1 →
        index ∉ (preloadResolve index g outcome s₂).fetching)
    ∧ (index ∉ s.fetching → index ∉ (preloadGeminiChunk index outcome s).fetching)
    ∧ preloadResolve index g FetchOutcome.failure s₂
        = { s₂ with fetching := s₂.fetching.erase index } := by
  refine ⟨?_, ?_, ?_, rfl⟩
  · intro h
    rw [preloadBegin_started_fetching h]
    simp
  · intro hcount
    rw [preloadResolve_fetching]
    intro hmem
    have := List.count_erase_self index s₂.fetching
    have hpos : 0 < (s₂.fetching.erase index).count index := List.count_pos_iff.mpr hmem
    omega
  · intro hmem
    unfold preloadGeminiChunk
    by_cases hstart : (preloadBegin index s).2 = true
    · rw [if_pos hstart, preloadResolve_fetching, preloadBegin_started_fetching hstart]
      simp only
      rw [List.erase_cons_head]
      exact hmem
    · have hfalse : (preloadBegin index s).2 = false := by
        cases h : (preloadBegin index s).2
        · rfl
        · exact absurd h hstart
      rw [if_neg hstart, preloadBegin_of_not_started hfalse]
      exact hmem

/-- Witness for C4 at the concrete state: segment 2 is in flight once
and each resolution path clears it. -/
theorem inflight_invariant_witness :
    (preloadBegin 2 { sPlay with fetching := [] }).2 = true
    ∧ 2 ∈ (preloadBegin 2 { sPlay with fetching := [] }).1.fetching
    ∧ 2 ∉ (preloadResolve 2 3 (FetchOutcome.success 99) sPlay).fetching
    ∧ 2 ∉ (preloadGeminiChunk 2 FetchOutcome.failure { sPlay with fetching := [] }).fetching := by
  have h₁ := (inflight_invariant 2 3 (FetchOutcome.success 99)
    { sPlay with fetching := [] } sPlay).1 (by decide)
  have h₂ := (inflight_invariant 2 3 (FetchOutcome.success 99)
    { sPlay with fetching := [] } sPlay).2.1 (by decide)
  have h₃ := (inflight_invariant 2 3 FetchOutcome.failure
    { sPlay with fetching := [] } sPlay).2.2.1 (by decide)
  exact ⟨by decide, h₁, h₂, h₃⟩

/-- C5: pause/resume offset accuracy on the buffered-clip backend.
Starting a clip at the stored offset `p`, letting real time `t` elapse
and pausing records `pausedTime = p + t * rate`; the highlight
estimator's elapsed-audio-time expression evaluates to the same value
at the same instant (both use elapsed real time times rate plus the
prior offset); and after resuming and playing a further `t₂`, the
estimated position equals the uninterrupted position
`p + (t + t₂) * rate`. -/
theorem pause_resume_offset (s : PlayState) (now t now₂ t₂ : ℚ)
    (hr : 0 < s.playbackRate) :
    (handlePauseGemini (now + t) (startClip now s).1).pausedTime
        = s.pausedTime + t * s.playbackRate
    ∧ elapsedAudioTime (startClip now s).1 (startClip now s).2 (now + t)
        = (handlePauseGemini (now + t) (startClip now s).1).pausedTime
    ∧ elapsedAudioTime
        (startClip now₂ (handlePauseGemini (now + t) (startClip now s).1)).1
        (startClip now₂ (handlePauseGemini (now + t) (startClip now s).1)).2
        (now₂ + t₂)
      = s.pausedTime + (t + t₂) * s.playbackRate := by
  unfold startClip handlePauseGemini elapsedAudioTime
  simp only [if_pos]
  refine ⟨by ring, by ring, by ring⟩

/-- Witness for C5: rate 1, prior offset 0, pause after 2 seconds,
resume and play 1 more second. -/
theorem pause_resume_offset_witness :
    (handlePauseGemini (5 + 2) (startClip 5 sPlay).1).pausedTime
        = sPlay.pausedTime + 2 * sPlay.playbackRate
    ∧ elapsedAudioTime (startClip 5 sPlay).1 (startClip 5 sPlay).2 (5 + 2)
        = (handlePauseGemini (5 + 2) (startClip 5 sPlay).1).pausedTime
    ∧ elapsedAudioTime
        (startClip 9 (handlePauseGemini (5 + 2) (startClip 5 sPlay).1)).1
        (startClip 9 (handlePauseGemini (5 + 2) (startClip 5 sPlay).1)).2
        (9 + 1)
      = sPlay.pausedTime + (2 + 1) * sPlay.playbackRate :=
  pause_resume_offset sPlay 5 2 9 1 (by decide)

/-- C9 counterexample: the platform-utterance error handler, on the
non-benign cause "not-allowed" in a playing state, leaves the session
status at PLAYING — it does not transition the session to the error
state as the claim requires. -/
theorem utterance_error_status_cex :
    (utteranceOnError "not-allowed" sPlay).status = AppStatus.PLAYING
    ∧ (utteranceOnError "not-allowed" sPlay).status ≠ AppStatus.ERROR
    ∧ (utteranceOnError "not-allowed" sPlay).isPlayingRef = false := by
  decide

/-- C9 amended: a benign interruption cause ("interrupted" or
"canceled") returns without changing any session state; every other
cause clears the play-intent flag and the playing flag and changes
nothing else — in particular the session status is left unchanged
rather than set to the error state. -/
theorem utterance_error_handling_amended (err : String) (s : PlayState) :
    (err = "interrupted" ∨ err = "canceled" → utteranceOnError err s = s)
    ∧ (err ≠ "interrupted" → err ≠ "canceled" →
        utteranceOnError err s = { s with isPlaying := false, isPlayingRef := false }) := by
  constructor
  · intro h
    unfold utteranceOnError
    rw [if_pos h]
  · intro h₁ h₂
    unfold utteranceOnError
    rw [if_neg (by
      rintro (h | h)
      · exact h₁ h
      · exact h₂ h)]

/-- Witness for C9 amended: a benign and a non-benign cause at the
concrete playing state. -/
theorem utterance_error_handling_amended_witness :
    utteranceOnError "interrupted" sPlay = sPlay
    ∧ utteranceOnError "not-allowed" sPlay
        = { sPlay with isPlaying := false, isPlayingRef := false } := by
  have h₁ := (utterance_error_handling_amended "interrupted" sPlay).1 (Or.inl rfl)
  have h₂ := (utterance_error_handling_amended "not-allowed" sPlay).2
    (by decide) (by decide)
  exact ⟨h₁, h₂⟩

end Readnow
